import Mathlib

/-!
Verification of the ggpk-tool repository's binary decoders against its
natural-language specification.  The definitions below are a shallow
embedding of the TypeScript source:

* `src/dat/dat-parser.ts` — the `.datc64` table decoder (`DATParser.parse`,
  `readField`, `readArray`, `readString`, `calculateRowSize`);
* the GGPK container reader (`GGPKReader.parseFileRecordLazy`);
* `src/ggpk/bundle-extractor.ts` — `extractBundledFiles` result handling;
* `src/dat/parallel-parser.ts` — the batch partition of
  `parseAllDatFilesParallel`;
* `src/extraction/extraction-pipeline.ts` — the per-file DAT step of
  `runExtractionPipeline`.

Buffers are modelled as `List Nat` (byte values), JavaScript numbers and
BigInts as `Int` (exact integers), JS exceptions as `Option` (a `none`
result models a throw), and JS objects as association lists with
assignment-overwrite semantics.  A `f32` field carries its raw 32-bit
little-endian pattern; no claim concerns float arithmetic.
-/

namespace GGPKTool

/-- Little-endian value of `k` bytes of `b` starting at index `i`
(out-of-range bytes read as 0; the bounds checks of the Node `Buffer`
read methods are made explicit in the `read*` functions below). -/
def leBytes (b : List Nat) (i : Nat) : Nat → Nat
  | 0 => 0
  | k + 1 => b.getD i 0 + 256 * leBytes b (i + 1) k

/-- Two's-complement reinterpretation of a `w`-bit unsigned value,
as `Buffer.readIntXXLE` / `readBigInt64LE` perform it. -/
def toSigned (w : Nat) (u : Nat) : Int :=
  if u < 2 ^ (w - 1) then (u : Int) else (u : Int) - 2 ^ w

/-- Model of `buffer.readUInt8(i)`: throws (`none`) when out of range. -/
def readUInt8 (b : List Nat) (i : Nat) : Option Nat :=
  if i + 1 ≤ b.length then some (b.getD i 0) else none

/-- Model of `buffer.readUInt16LE(i)`. -/
def readUInt16LE (b : List Nat) (i : Nat) : Option Nat :=
  if i + 2 ≤ b.length then some (leBytes b i 2) else none

/-- Model of `buffer.readInt16LE(i)`. -/
def readInt16LE (b : List Nat) (i : Nat) : Option Int :=
  if i + 2 ≤ b.length then some (toSigned 16 (leBytes b i 2)) else none

/-- Model of `buffer.readInt32LE(i)`. -/
def readInt32LE (b : List Nat) (i : Nat) : Option Int :=
  if i + 4 ≤ b.length then some (toSigned 32 (leBytes b i 4)) else none

/-- Model of `buffer.readUInt32LE(i)`. -/
def readUInt32LE (b : List Nat) (i : Nat) : Option Nat :=
  if i + 4 ≤ b.length then some (leBytes b i 4) else none

/-- Model of `buffer.readFloatLE(i)`: the raw 32-bit pattern is kept. -/
def readFloatLE (b : List Nat) (i : Nat) : Option Nat :=
  if i + 4 ≤ b.length then some (leBytes b i 4) else none

/-- Model of `buffer.readBigInt64LE(i)`: a signed 64-bit value. -/
def readBigInt64LE (b : List Nat) (i : Nat) : Option Int :=
  if i + 8 ≤ b.length then some (toSigned 64 (leBytes b i 8)) else none

/-- Source: `const NULL_ROW = -1n`. -/
def NULL_ROW : Int := -1

/-- Source: `const NULL_FOREIGN_ROW = 0xFFFFFFFFFFFFFFFEn`.  Note that the
BigInt literal `0xFFFFFFFFFFFFFFFEn` denotes the positive number
`2^64 - 2`, not `-2` as the adjacent source comment says. -/
def NULL_FOREIGN_ROW : Int := 0xFFFFFFFFFFFFFFFE

/-- Source: `const NULL_MARKER = BigInt.asIntN(64, 0xFEFEFEFEFEFEFEFEn)`. -/
def NULL_MARKER : Int := toSigned 64 0xFEFEFEFEFEFEFEFE

/-- Column element types of the schema (`SchemaColumn.type`). -/
inductive ColType where
  | bool | i16 | u16 | i32 | u32 | f32 | string | row | foreignrow | enumrow
  | array
deriving DecidableEq, Repr

/-- Source: the `FIELD_SIZES` table of `dat-parser.ts`. -/
def fieldSize : ColType → Nat
  | .bool => 1
  | .i16 => 2
  | .u16 => 2
  | .i32 => 4
  | .u32 => 4
  | .f32 => 4
  | .string => 8
  | .row => 8
  | .foreignrow => 16
  | .enumrow => 4
  | .array => 16

/-- Decoded field values.  `str` carries UTF-16 code units; `f32` its raw
bit pattern; `bigintStr` models the default case of `readField` which
renders an 8-byte value via `BigInt.toString`. -/
inductive Value where
  | null
  | bool (b : Bool)
  | int (n : Int)
  | f32 (bits : Nat)
  | str (units : List Nat)
  | bigintStr (n : Int)
  | arr (vs : List Value)
deriving Repr

/-- Schema column: the fields `DATParser` reads (`name`, `array`, `type`);
informational fields (description, unique, localized, references, until,
file, files) do not influence decoding and are omitted. -/
structure SchemaColumn where
  name : Option String
  array : Bool
  type : ColType

/-- Schema table as consumed by the decoder. -/
structure SchemaTable where
  validFor : Nat
  name : String
  columns : List SchemaColumn

/-- Source: `DATParser.calculateRowSize` — sum of 16 for array columns and
`FIELD_SIZES[col.type]` otherwise (every known type has a size, so the
`|| 8` default is never taken). -/
def calculateRowSize (table : SchemaTable) : Nat :=
  table.columns.foldl (fun size col => size + if col.array then 16 else fieldSize col.type) 0

/-- Fuel-driven loop of `DATParser.readString`: starting at `e`, advance two
bytes at a time while a further 4-byte read fits and the `u32` there is
nonzero.  The fuel only bounds the recursion; `stringEnd` supplies enough
for the loop never to be cut short. -/
def stringEndGo (buf : List Nat) : Nat → Nat → Nat
  | 0, e => e
  | fuel + 1, e =>
      if e + 4 ≤ buf.length then
        if leBytes buf e 4 = 0 then e else stringEndGo buf fuel (e + 2)
      else e

/-- Position of the 4-byte null terminator found by `readString`'s loop. -/
def stringEnd (buf : List Nat) (off : Nat) : Nat :=
  stringEndGo buf buf.length off

/-- UTF-16LE code units of `k` two-byte pairs starting at `a`, as
`buffer.toString('utf16le', a, a + 2*k)` yields them. -/
def utf16Range (buf : List Nat) (a k : Nat) : List Nat :=
  (List.range k).map fun j => leBytes buf (a + 2 * j) 2

/-- Source: `DATParser.readString` — empty for an offset at or past the end,
otherwise the UTF-16LE units up to the 4-byte null terminator. -/
def readString (buf : List Nat) (off : Nat) : List Nat :=
  if buf.length ≤ off then []
  else
    let e := stringEnd buf off
    if e = off then []
    else utf16Range buf off ((e - off) / 2)

/-- Source: `DATParser.readField` — one fixed-region field.  `none` models a
thrown `RangeError` from an out-of-bounds buffer read.  The `.array` case is
the source's `default` branch (readField has no `'array'` case). -/
def readField (buf : List Nat) (off vds : Nat) : ColType → Option (Value × Nat)
  | .bool => (readUInt8 buf off).map fun v => (.bool (v ≠ 0), 1)
  | .i16 => (readInt16LE buf off).map fun v => (.int v, 2)
  | .u16 => (readUInt16LE buf off).map fun v => (.int v, 2)
  | .i32 => (readInt32LE buf off).map fun v => (.int v, 4)
  | .enumrow => (readInt32LE buf off).map fun v => (.int v, 4)
  | .u32 => (readUInt32LE buf off).map fun v => (.int v, 4)
  | .f32 => (readFloatLE buf off).map fun v => (.f32 v, 4)
  | .string =>
      (readBigInt64LE buf off).map fun strOffset =>
        if strOffset < 0 then (.null, 8)
        else (.str (readString buf (vds + strOffset.toNat)), 8)
  | .row =>
      (readBigInt64LE buf off).map fun rid =>
        if rid = NULL_ROW ∨ rid = NULL_MARKER then (.null, 8)
        else (.int rid, 8)
  | .foreignrow =>
      (readBigInt64LE buf off).map fun rid =>
        if rid = NULL_ROW ∨ rid = NULL_FOREIGN_ROW ∨ rid = NULL_MARKER then (.null, 16)
        else (.int rid, 16)
  | .array =>
      (readBigInt64LE buf off).map fun v => (.bigintStr v, 8)

/-- Element value pushed by `readArray`'s loop for one element: the read
field's value, or null if the read threw. -/
def elemVal (buf : List Nat) (vds : Nat) (t : ColType) (eo : Nat) : Value :=
  match readField buf eo vds t with
  | some (v, _) => v
  | none => .null

/-- Source: the `for (let i = 0; i < count; i++)` loop of
`DATParser.readArray`: stop early when the next element read would cross
the end of the buffer. -/
def readArrayLoop (buf : List Nat) (vds : Nat) (t : ColType) (es : Nat) :
    Nat → Nat → List Value
  | 0, _ => []
  | n + 1, eo =>
      if buf.length < eo + es then []
      else elemVal buf vds t eo :: readArrayLoop buf vds t es n (eo + es)

/-- Source: `DATParser.readArray`. -/
def readArray (buf : List Nat) (off vds : Nat) (t : ColType) :
    Option (List Value × Nat) :=
  match readBigInt64LE buf off, readBigInt64LE buf (off + 8) with
  | some length, some arrayOffset =>
      if length = 0 ∨ arrayOffset < 0 then some ([], 16)
      else if 100000 < length ∨ length < 0 then some ([], 16)
      else if t = ColType.array then some ([], 16)
      else
        let dataOffset := vds + arrayOffset.toNat
        if buf.length ≤ dataOffset then some ([], 16)
        else some (readArrayLoop buf vds t (fieldSize t) length.toNat dataOffset, 16)
  | _, _ => none

/-- Rows are JavaScript objects: association lists with assignment-overwrite
semantics (`row[k] = v` replaces an existing binding of `k`, else appends). -/
def Row : Type := List (String × Value)

/-- JavaScript property assignment `row[k] = v`. -/
def setField : List (String × Value) → String → Value → List (String × Value)
  | [], k, v => [(k, v)]
  | (k', v') :: rest, k, v =>
      if k' = k then (k, v) :: rest else (k', v') :: setField rest k v

/-- Source: the `fieldName` fallback of the column loop — JavaScript's `||`
takes the fallback name `_unknown` + colIdx for `null` and for the empty
string. -/
def fieldNameOf (col : SchemaColumn) (colIdx : Nat) : String :=
  match col.name with
  | some s => if s = "" then "_unknown" ++ toString colIdx else s
  | none => "_unknown" ++ toString colIdx

/-- Source: the inner column loop of `DATParser.parse`: stop at the row
boundary, read each column with a per-field catch that records null and
advances by the nominal size, and thread the cursor. -/
def decodeCols (buf : List Nat) (vds rowStart rowSize : Nat) :
    List SchemaColumn → Nat → List (String × Value) → Nat → List (String × Value)
  | [], _, row, _ => row
  | col :: rest, colIdx, row, off =>
      if rowStart + rowSize ≤ off then row
      else
        let step : Value × Nat :=
          if col.array then
            match readArray buf off vds col.type with
            | some (vs, bytesRead) => (.arr vs, bytesRead)
            | none => (.null, 16)
          else
            match readField buf off vds col.type with
            | some (v, bytesRead) => (v, bytesRead)
            | none => (.null, fieldSize col.type)
        decodeCols buf vds rowStart rowSize rest (colIdx + 1)
          (setField row (fieldNameOf col colIdx) step.1) (off + step.2)

/-- One row of `DATParser.parse`: start from `{ _rid: i }` and decode the
columns from `rowStart`. -/
def decodeRow (table : SchemaTable) (buf : List Nat) (vds rowSize rowStart i : Nat) :
    List (String × Value) :=
  decodeCols buf vds rowStart rowSize table.columns 0 [("_rid", .int (i : Int))] rowStart

/-- Source: the outer row loop of `DATParser.parse`: after each row the
cursor is hard-reset to `rowStart + rowSize`. -/
def parseRows (table : SchemaTable) (buf : List Nat) (vds rowSize : Nat) :
    Nat → Nat → Nat → List (List (String × Value))
  | 0, _, _ => []
  | n + 1, i, off =>
      decodeRow table buf vds rowSize off i :: parseRows table buf vds rowSize n (i + 1) (off + rowSize)

/-- True when the 8 bytes of `buf` at `i` are the `0xBB` variable-data magic. -/
def isMagicAt (buf : List Nat) (i : Nat) : Bool :=
  decide (i + 8 ≤ buf.length) && (List.range 8).all fun j => buf.getD (i + j) 0 = 0xBB

/-- Fuel-driven scan of `buffer.indexOf(VARIABLE_DATA_MAGIC, i)`. -/
def findMagicGo (buf : List Nat) : Nat → Nat → Option Nat
  | 0, _ => none
  | fuel + 1, i =>
      if i + 8 ≤ buf.length then
        if isMagicAt buf i then some i else findMagicGo buf fuel (i + 1)
      else none

/-- Source: `buffer.indexOf(VARIABLE_DATA_MAGIC, fixedDataStart)` — first
occurrence of the 8-byte `0xBB` run at an index ≥ 4. -/
def findMagic (buf : List Nat) : Option Nat :=
  findMagicGo buf buf.length 4

/-- Result of `DATParser.parse`: `{ rows, rowCount, error? }`. -/
structure ParseResult where
  rows : List (List (String × Value))
  rowCount : Nat
  error : Option String

/-- Source: `DATParser.parse`, for a table found in the schema map (the
`Unknown table` case is upstream of the table argument).  The source wraps
the row loop in a `try`, but every read inside is already guarded by the
per-field catch, so that handler is unreachable and the loop always
completes. -/
def parse (table : SchemaTable) (buf : List Nat) : ParseResult :=
  if buf.length < 4 then ⟨[], 0, some "Buffer too small"⟩
  else
    let rowCount := leBytes buf 0 4
    if rowCount = 0 then ⟨[], 0, none⟩
    else
      match findMagic buf with
      | none => ⟨[], 0, some "Magic bytes not found"⟩
      | some magicIndex =>
          let rowSize := (magicIndex - 4) / rowCount
          ⟨parseRows table buf magicIndex rowSize rowCount 0 4, rowCount, none⟩

/-! ### GGPK container reader (`GGPKReader.parseFileRecordLazy`) -/

/-- Model of `GGPKReader.readAtOffset`: `Buffer.alloc(length)` zero-fills and
`readSync` copies what exists, so bytes past the end of the file read as 0. -/
def readAtOffset (file : List Nat) (off len : Nat) : List Nat :=
  (List.range len).map fun i => file.getD (off + i) 0

/-- Decoded `FILE` record metadata (payload bytes are never loaded). -/
structure FileRecord where
  offset : Nat
  length : Nat
  name : List Nat
  hash : List Nat
  dataOffset : Nat
  dataLength : Int

/-- UTF-16LE decode of a whole byte buffer, two bytes per code unit. -/
def bufToUtf16 (l : List Nat) : List Nat :=
  (List.range (l.length / 2)).map fun j => leBytes l (2 * j) 2

/-- Source: `GGPKReader.parseFileRecordLazy` — read the 16-byte metadata
header, recover the name length, then read the full header
`[length:4][tag:4][nameLength:4][hash:32][name:2*nameLength]` and compute
the payload position from the cursor. -/
def parseFileRecordLazy (file : List Nat) (offset totalLength : Nat) : FileRecord :=
  let metaHeader := readAtOffset file offset 16
  let nameLength := leBytes metaHeader 8 4
  let headerSize := 8 + 4 + 32 + nameLength * 2
  let headerBuffer := readAtOffset file offset headerSize
  let hash := (headerBuffer.drop 12).take 32
  let nameBuffer := (headerBuffer.drop 44).take ((nameLength - 1) * 2)
  let pos := 44 + nameLength * 2
  { offset := offset
    length := totalLength
    name := bufToUtf16 nameBuffer
    hash := hash
    dataOffset := offset + pos
    dataLength := (totalLength : Int) - (pos : Int) }

/-! ### Bundle extractor (`extractBundledFiles`) -/

/-- Result object `{ extracted, total, missed }` of `extractBundledFiles`. -/
structure ExtractionResult where
  extracted : Nat
  total : Nat
  missed : Nat
deriving DecidableEq, Repr

/-- Expect the literal `lit` at the front of `s`; return the remainder. -/
def matchLit : List Char → List Char → Option (List Char)
  | [], s => some s
  | _ :: _, [] => none
  | c :: cs, d :: ds => if d = c then matchLit cs ds else none

/-- Numeric value of a digit run, as `parseInt` reads a matched `\d+`. -/
def digitsVal (ds : List Char) : Nat :=
  ds.foldl (fun a c => a * 10 + (c.toNat - '0'.toNat)) 0

/-- Match of the regex `Done, (\d+)\/(\d+) extracted, (\d+) missed` anchored
at the front of `s`; each `\d+` takes the maximal digit run (equivalent to
the regex since each following literal starts with a non-digit). -/
def matchDoneAt (s : List Char) : Option (Nat × Nat × Nat) :=
  match matchLit "Done, ".toList s with
  | none => none
  | some s1 =>
      let d1 := s1.takeWhile Char.isDigit
      if d1.isEmpty then none
      else
        match matchLit "/".toList (s1.dropWhile Char.isDigit) with
        | none => none
        | some s2 =>
            let d2 := s2.takeWhile Char.isDigit
            if d2.isEmpty then none
            else
              match matchLit " extracted, ".toList (s2.dropWhile Char.isDigit) with
              | none => none
              | some s3 =>
                  let d3 := s3.takeWhile Char.isDigit
                  if d3.isEmpty then none
                  else
                    match matchLit " missed".toList (s3.dropWhile Char.isDigit) with
                    | none => none
                    | some _ => some (digitsVal d1, digitsVal d2, digitsVal d3)

/-- Leftmost match of the `Done,` line pattern, as `String.prototype.match`
finds it. -/
def findDone : List Char → Option (Nat × Nat × Nat)
  | [] => none
  | c :: rest =>
      match matchDoneAt (c :: rest) with
      | some r => some r
      | none => findDone rest

/-- Substring test, as `String.prototype.includes`. -/
def containsSub (pat : List Char) : List Char → Bool
  | [] => pat.isEmpty
  | c :: rest => pat.isPrefixOf (c :: rest) || containsSub pat rest

/-- Source: the tail of `extractBundledFiles` after the process exits:
`output = stdout + '\n' + outputBuffer`; throw (`none`) when the exit code
is nonzero and `output` lacks the `Done,` sentinel; otherwise report the
parsed `Done` line, or a fallback counting every pattern as missed. -/
def extractOutcome (exitCode : Int) (stdoutText stderrText : List Char)
    (numPatterns : Nat) : Option ExtractionResult :=
  let output := stdoutText ++ '\n' :: stderrText
  if exitCode ≠ 0 ∧ containsSub "Done,".toList output = false then none
  else
    match findDone output with
    | some (x, y, z) => some ⟨x, y, z⟩
    | none => some ⟨0, numPatterns, numPatterns⟩

/-! ### Parallel decode driver (`parseAllDatFilesParallel` batching) -/

/-- Fuel-driven loop `for (let i = 0; i < tasks.length; i += batchSize)`
pushing `tasks.slice(i, i + batchSize)`.  `chunkBy` supplies fuel
`l.length`, enough for every positive batch size (the source only reaches
the loop with a nonempty task list, hence `batchSize ≥ 1`). -/
def chunkByGo {α : Type} (bs : Nat) : Nat → List α → List (List α)
  | 0, _ => []
  | _ + 1, [] => []
  | fuel + 1, x :: xs => (x :: xs).take bs :: chunkByGo bs fuel ((x :: xs).drop bs)

/-- Slices of `l` of size `bs` (last possibly shorter). -/
def chunkBy {α : Type} (bs : Nat) (l : List α) : List (List α) :=
  chunkByGo bs l.length l

/-- Source: lines 130-137 of `parallel-parser.ts`:
`actualWorkers = min(numWorkers, tasks.length)`,
`batchSize = ceil(tasks.length / actualWorkers)`, then slice. -/
def makeBatches {α : Type} (numWorkers : Nat) (tasks : List α) : List (List α) :=
  let actualWorkers := min numWorkers tasks.length
  let batchSize := (tasks.length + actualWorkers - 1) / actualWorkers
  chunkBy batchSize tasks

/-! ### Extraction pipeline (per-DAT-file step of `runExtractionPipeline`) -/

/-- Suffix replacement `file.replace(/\.datc?64$/i, '.json')`: the regex
matches a trailing `.datc64` or `.dat64` (case-insensitive); a bare `.dat`
does not match and the name is returned unchanged. -/
def jsonPathOf (file : List Char) : List Char :=
  let lower := file.map Char.toLower
  if ".datc64".toList.isSuffixOf lower then
    file.take (file.length - 7) ++ ".json".toList
  else if ".dat64".toList.isSuffixOf lower then
    file.take (file.length - 6) ++ ".json".toList
  else file

/-- Observable effects of one iteration of the DAT loop in
`runExtractionPipeline`: which path (if any) gets the JSON, whether the
binary is deleted, and which counter is bumped. -/
structure PipelineFileOutcome where
  jsonWritten : Option (List Char)
  binaryDeleted : Bool
  countedParsed : Bool
deriving DecidableEq

/-- Source: lines 154-179 of `extraction-pipeline.ts`: with a loaded parser,
write `<name>.json` and delete the binary exactly when the decode produced
at least one row; otherwise (no parser, empty rows, or a thrown error,
which the surrounding `catch` also counts as failed) bump `data.failed`. -/
def pipelineDatStep (parserLoaded : Bool) (parsed : ParseResult) (file : List Char) :
    PipelineFileOutcome :=
  if parserLoaded then
    if parsed.rows.length > 0 then ⟨some (jsonPathOf file), true, true⟩
    else ⟨none, false, false⟩
  else ⟨none, false, false⟩

/-- Metrics fold of the DAT loop: every file is visited (no abort), each
bumping exactly one of `data.parsed` / `data.failed`. -/
def pipelineDatMetrics (parserLoaded : Bool) (results : List ParseResult) : Nat × Nat :=
  results.foldl
    (fun acc parsed =>
      if (pipelineDatStep parserLoaded parsed []).countedParsed then (acc.1 + 1, acc.2)
      else (acc.1, acc.2 + 1))
    (0, 0)

/-! ### Concrete fixtures used by witnesses and counterexamples -/

/-- Table with a single `i32` column, schema row size 4. -/
def tbl1 : SchemaTable := ⟨2, "t1", [⟨some "a", false, .i32⟩]⟩

/-- Buffer for `tbl1`: row count 1, an 8-byte fixed region (observed row
size 8 ≠ schema row size 4), magic at offset 12. -/
def buf1 : List Nat :=
  [1, 0, 0, 0, 5, 0, 0, 0, 6, 0, 0, 0, 0xBB, 0xBB, 0xBB, 0xBB, 0xBB, 0xBB, 0xBB, 0xBB]

/-- Two-row buffer for `tbl1`-shaped tables: row count 2, 16-byte fixed
region, magic at offset 20, observed row size 8. -/
def bufW : List Nat :=
  [2, 0, 0, 0, 5, 0, 0, 0, 6, 0, 0, 0, 7, 0, 0, 0, 8, 0, 0, 0] ++
  [0xBB, 0xBB, 0xBB, 0xBB, 0xBB, 0xBB, 0xBB, 0xBB]

/-- Table whose only column is named `_rid` (legal in the schema format). -/
def tblR : SchemaTable := ⟨2, "r", [⟨some "_rid", false, .bool⟩]⟩

/-- Buffer for `tblR`: row count 1, one-byte fixed region holding `1`,
magic at offset 5. -/
def bufR : List Nat := [1, 0, 0, 0, 1, 0xBB, 0xBB, 0xBB, 0xBB, 0xBB, 0xBB, 0xBB, 0xBB]

/-- Sixteen bytes encoding the signed 64-bit row id `-2` followed by a zero
table tag: the on-disk form of a `foreignrow` field whose row id is `-2`. -/
def fr2 : List Nat :=
  [0xFE, 0xFF, 0xFF, 0xFF, 0xFF, 0xFF, 0xFF, 0xFF, 0, 0, 0, 0, 0, 0, 0, 0]

/-- Buffer with one string column: row count 1, string offset 8 in the
fixed region, magic at 12, the UTF-16LE text `hi` at absolute offset 20. -/
def strBuf : List Nat :=
  [1, 0, 0, 0, 8, 0, 0, 0, 0, 0, 0, 0, 0xBB, 0xBB, 0xBB, 0xBB, 0xBB, 0xBB, 0xBB, 0xBB,
   0x68, 0, 0x69, 0, 0, 0, 0, 0]

/-- Buffer holding an `i32` array field at offset 4 (count 3, offset 8) with
variable region at 20 and elements 1, 2, 3 at absolute offset 28. -/
def arrBuf : List Nat :=
  [1, 0, 0, 0, 3, 0, 0, 0, 0, 0, 0, 0, 8, 0, 0, 0, 0, 0, 0, 0,
   0xBB, 0xBB, 0xBB, 0xBB, 0xBB, 0xBB, 0xBB, 0xBB,
   1, 0, 0, 0, 2, 0, 0, 0, 3, 0, 0, 0]

/-- Four zero bytes: a `.datc64` buffer with row count 0, which decodes
successfully to zero rows. -/
def zeroBuf : List Nat := [0, 0, 0, 0]

/-! ## Theorems -/

/-- Bytes of a positioned read agree with the underlying file. -/
theorem readAtOffset_getD (file : List Nat) (off len j : Nat) (h : j < len) :
    (readAtOffset file off len).getD j 0 = file.getD (off + j) 0 := by
  simp [readAtOffset, List.getD_eq_getElem?_getD, List.getElem?_map, List.getElem?_range, h]

/-- C2: the source's `NULL_FOREIGN_ROW` comparison can never fire — the
constant is the positive number `2^64 - 2`, while `readBigInt64LE` only
yields signed values; a stored row id of `-2` therefore decodes to the
integer `-2`, not to null, contradicting the claim (and the source's own
`// -2` comment and the spec's null-sentinel table). -/
theorem C2_foreignrow_minus_two_decodes_to_minus_two :
    readBigInt64LE fr2 0 = some (-2)
      ∧ readField fr2 0 0 ColType.foreignrow = some (Value.int (-2), 16)
      ∧ NULL_FOREIGN_ROW = 18446744073709551614 := by
  refine ⟨rfl, rfl, rfl⟩

/-- C6: for a `FILE` record parsed lazily with total length `L` and name
length `N` (the `u32` stored at byte 8 of the record), the payload offset
within the record is `8 + 4 + 32 + 2N` — so the absolute data offset is
`record offset + 44 + 2N` — and the payload length is `L − (8+4+32+2N)`. -/
theorem C6_file_record_offset_arithmetic (file : List Nat) (off L : Nat) :
    (parseFileRecordLazy file off L).dataOffset
        = off + (8 + 4 + 32 + 2 * leBytes file (off + 8) 4)
      ∧ (parseFileRecordLazy file off L).dataLength
        = (L : Int) - ((8 + 4 + 32 + 2 * leBytes file (off + 8) 4 : Nat) : Int) := by
  have hN : leBytes (readAtOffset file off 16) 8 4 = leBytes file (off + 8) 4 := by
    simp only [leBytes]
    rw [readAtOffset_getD file off 16 8 (by omega),
        readAtOffset_getD file off 16 (8 + 1) (by omega),
        readAtOffset_getD file off 16 (8 + 1 + 1) (by omega),
        readAtOffset_getD file off 16 (8 + 1 + 1 + 1) (by omega)]
  constructor
  · simp only [parseFileRecordLazy, hN]
    omega
  · simp only [parseFileRecordLazy, hN]
    omega

/-- C7: the bundle extraction outcome throws exactly when the exit code is
nonzero and the combined `stdout + '\n' + stderr` output lacks the `Done,`
sentinel; otherwise, whenever the output contains a line matching
`Done, X/Y extracted, Z missed`, the reported result is
`{extracted := X, total := Y, missed := Z}`. -/
theorem C7_extract_failure_semantics (e : Int) (so se : List Char) (n : Nat) :
    (extractOutcome e so se n = none
        ↔ e ≠ 0 ∧ containsSub "Done,".toList (so ++ '\n' :: se) = false)
      ∧ (∀ x y z, findDone (so ++ '\n' :: se) = some (x, y, z) →
          (e = 0 ∨ containsSub "Done,".toList (so ++ '\n' :: se) = true) →
          extractOutcome e so se n = some ⟨x, y, z⟩) := by
  have hout : extractOutcome e so se n =
      (if e ≠ 0 ∧ containsSub "Done,".toList (so ++ '\n' :: se) = false then none
       else
         match findDone (so ++ '\n' :: se) with
         | some (x, y, z) => some ⟨x, y, z⟩
         | none => some ⟨0, n, n⟩) := rfl
  constructor
  · rw [hout]
    by_cases h : e ≠ 0 ∧ containsSub "Done,".toList (so ++ '\n' :: se) = false
    · rw [if_pos h]; exact ⟨fun _ => h, fun _ => rfl⟩
    · rw [if_neg h]
      constructor
      · intro hnone
        exfalso
        cases hf : findDone (so ++ '\n' :: se) with
        | none => rw [hf] at hnone; exact Option.noConfusion hnone
        | some r =>
            obtain ⟨x, y, z⟩ := r
            rw [hf] at hnone
            exact Option.noConfusion hnone
      · intro hc; exact absurd hc h
  · intro x y z hf hd
    have hcond : ¬ (e ≠ 0 ∧ containsSub "Done,".toList (so ++ '\n' :: se) = false) := by
      rcases hd with h0 | hc
      · intro hcontra; exact hcontra.1 h0
      · intro hcontra; rw [hc] at hcontra; exact Bool.noConfusion hcontra.2
    rw [hout, if_neg hcond, hf]

/-- Accumulator form of the pipeline metrics fold. -/
theorem pipelineDatMetrics_go (parserLoaded : Bool) (results : List ParseResult) :
    ∀ acc : Nat × Nat,
      (results.foldl
        (fun acc parsed =>
          if (pipelineDatStep parserLoaded parsed []).countedParsed then (acc.1 + 1, acc.2)
          else (acc.1, acc.2 + 1)) acc).1
      + (results.foldl
        (fun acc parsed =>
          if (pipelineDatStep parserLoaded parsed []).countedParsed then (acc.1 + 1, acc.2)
          else (acc.1, acc.2 + 1)) acc).2
      = acc.1 + acc.2 + results.length := by
  induction results with
  | nil => intro acc; simp
  | cons p rest ih =>
      intro acc
      by_cases h : (pipelineDatStep parserLoaded p []).countedParsed
      · simp only [List.foldl_cons, if_pos h, List.length_cons]
        rw [ih]
        omega
      · simp only [List.foldl_cons, if_neg h, List.length_cons]
        rw [ih]
        omega

/-- C9 (amended): with a loaded parser the pipeline's per-DAT step writes
`<name>.json` next to the binary and deletes the binary exactly when the
decode produced a non-empty row list (a successful zero-row decode is
counted as failed, with nothing written); and the loop never aborts —
every file bumps exactly one of the two counters, so they sum to the
number of files. -/
theorem C9_pipeline_dat_step (p : ParseResult) (file : List Char)
    (results : List ParseResult) :
    (pipelineDatStep true p file
        = ⟨some (jsonPathOf file), true, true⟩ ↔ p.rows ≠ [])
      ∧ (pipelineDatStep true p file = ⟨none, false, false⟩ ↔ p.rows = [])
      ∧ (pipelineDatMetrics true results).1 + (pipelineDatMetrics true results).2
        = results.length := by
  refine ⟨?_, ?_, ?_⟩
  · by_cases h : p.rows.length > 0
    · simp [pipelineDatStep, h, List.length_pos.mp h]
    · have : p.rows = [] := List.length_eq_zero.mp (by omega)
      simp [pipelineDatStep, h, this]
  · by_cases h : p.rows.length > 0
    · simp [pipelineDatStep, h, List.length_pos.mp h]
    · have : p.rows = [] := List.length_eq_zero.mp (by omega)
      simp [pipelineDatStep, h, this]
  · have := pipelineDatMetrics_go true results (0, 0)
    simpa [pipelineDatMetrics] using this

/-- C9 counterexample: the buffer `[0,0,0,0]` decodes successfully (no
error) to zero rows, yet the pipeline writes no JSON, deletes nothing and
counts the file as failed — refuting the claim that every successful
decode yields an adjacent JSON file and a deleted binary. -/
theorem C9_zero_row_decode_cex :
    (parse tbl1 zeroBuf).error = none
      ∧ (parse tbl1 zeroBuf).rows = []
      ∧ pipelineDatStep true (parse tbl1 zeroBuf) "a.datc64".toList
        = ⟨none, false, false⟩ := by
  refine ⟨rfl, rfl, rfl⟩

/-- Closed form of the row loop: the `k`-th row decoded by `parseRows`
starts at `off + k * rowSize`, because the cursor is hard-reset to
`rowStart + rowSize` after every row. -/
theorem parseRows_closed (table : SchemaTable) (buf : List Nat) (vds rowSize : Nat) :
    ∀ n i off, parseRows table buf vds rowSize n i off
      = (List.range n).map fun k => decodeRow table buf vds rowSize (off + k * rowSize) (i + k) := by
  intro n
  induction n with
  | zero => intro i off; simp [parseRows]
  | succ n ih =>
      intro i off
      rw [parseRows, ih (i + 1) (off + rowSize), List.range_succ_eq_map, List.map_cons,
        List.map_map]
      refine congrArg₂ List.cons (by norm_num) ?_
      refine congrArg (fun f => List.map f (List.range n)) (funext fun k => ?_)
      simp only [Function.comp_apply, Nat.succ_eq_add_one]
      have h1 : off + rowSize + k * rowSize = off + (k + 1) * rowSize := by ring
      have h2 : i + 1 + k = i + (k + 1) := by ring
      rw [h1, h2]

/-- C1: whenever the buffer declares a positive row count and the `0xBB`
magic is present at index `m`, `parse` decodes with the observed row size
`R = (m − 4) / rowCount` — not the schema-computed size — and row `i` of the
output is decoded from fixed-region start `4 + i * R`, so each row spans
exactly `R` bytes and no row desynchronises its successors. -/
theorem C1_row_size_reconciliation (table : SchemaTable) (buf : List Nat) (rc m : Nat)
    (h4 : 4 ≤ buf.length) (hrc : leBytes buf 0 4 = rc) (hpos : 0 < rc)
    (hm : findMagic buf = some m) :
    (parse table buf).rows
        = (List.range rc).map
            (fun i => decodeRow table buf m ((m - 4) / rc) (4 + i * ((m - 4) / rc)) i)
      ∧ (parse table buf).rows.length = rc
      ∧ (parse table buf).rowCount = rc := by
  have hlt : ¬ buf.length < 4 := by omega
  have hne : ¬ leBytes buf 0 4 = 0 := by omega
  have hrows : (parse table buf).rows
      = (List.range rc).map
          (fun i => decodeRow table buf m ((m - 4) / rc) (4 + i * ((m - 4) / rc)) i) := by
    simp only [parse, if_neg hlt, hrc, if_neg (hrc ▸ hne), hm]
    rw [parseRows_closed]
    exact congrArg (fun f => List.map f (List.range rc)) (funext fun k => by norm_num)
  refine ⟨hrows, ?_, ?_⟩
  · rw [hrows]; simp
  · simp only [parse, if_neg hlt, hrc, if_neg (hrc ▸ hne), hm]

/-- C1 witness: a concrete two-row buffer with observed row size 8. -/
theorem C1_row_size_reconciliation_witness :
    (4 ≤ bufW.length ∧ leBytes bufW 0 4 = 2 ∧ 0 < 2 ∧ findMagic bufW = some 20)
      ∧ ((parse tbl1 bufW).rows
          = (List.range 2).map
              (fun i => decodeRow tbl1 bufW 20 ((20 - 4) / 2) (4 + i * ((20 - 4) / 2)) i)
        ∧ (parse tbl1 bufW).rows.length = 2
        ∧ (parse tbl1 bufW).rowCount = 2) :=
  ⟨⟨by decide, by decide, by decide, by decide⟩,
    C1_row_size_reconciliation tbl1 bufW 2 20 (by decide) (by decide) (by decide) (by decide)⟩

/-- C3 counterexample: for `tbl1` (schema row size 4) and `buf1` (observed
row size 8) the decode recovers all rows but attaches no warning at all —
`error` is `none` — refuting the claim that the schema-size mismatch makes
`parse` attach a decode-warning text. -/
theorem C3_no_warning_on_size_mismatch_cex :
    calculateRowSize tbl1 = 4
      ∧ findMagic buf1 = some 12
      ∧ (12 - 4) / leBytes buf1 0 4 = 8
      ∧ (parse tbl1 buf1).rows.length = 1
      ∧ (parse tbl1 buf1).error = none := by
  refine ⟨rfl, by decide, rfl, rfl, rfl⟩

/-- C3 (amended): when the schema-computed row size differs from the
observed row size, `parse` still recovers all `rowCount` rows, but no
warning of any kind is attached — the result's `error` field is `none`, the
mismatch being silently ignored. -/
theorem C3_size_mismatch_silent (table : SchemaTable) (buf : List Nat) (rc m : Nat)
    (h4 : 4 ≤ buf.length) (hrc : leBytes buf 0 4 = rc) (hpos : 0 < rc)
    (hm : findMagic buf = some m)
    (hmismatch : calculateRowSize table ≠ (m - 4) / rc) :
    (parse table buf).rows.length = rc ∧ (parse table buf).error = none := by
  have hlt : ¬ buf.length < 4 := by omega
  have hne : ¬ leBytes buf 0 4 = 0 := by omega
  refine ⟨(C1_row_size_reconciliation table buf rc m h4 hrc hpos hm).2.1, ?_⟩
  simp only [parse, if_neg hlt, hrc, if_neg (hrc ▸ hne), hm]

/-- C3 witness: the concrete mismatch instance `tbl1` / `buf1`. -/
theorem C3_size_mismatch_silent_witness :
    (4 ≤ buf1.length ∧ leBytes buf1 0 4 = 1 ∧ 0 < 1 ∧ findMagic buf1 = some 12
        ∧ calculateRowSize tbl1 ≠ (12 - 4) / 1)
      ∧ ((parse tbl1 buf1).rows.length = 1 ∧ (parse tbl1 buf1).error = none) :=
  ⟨⟨by decide, by decide, by decide, by decide, by decide⟩,
    C3_size_mismatch_silent tbl1 buf1 1 12 (by decide) (by decide) (by decide) (by decide)
      (by decide)⟩

/-- Assignment to a different key leaves a lookup unchanged. -/
theorem lookup_setField_ne (row : List (String × Value)) (k k' : String) (v : Value)
    (h : k ≠ k') : (setField row k' v).lookup k = row.lookup k := by
  induction row with
  | nil => simp [setField, List.lookup, beq_false_of_ne h]
  | cons p rest ih =>
      obtain ⟨a, b⟩ := p
      by_cases ha : a = k'
      · subst ha
        have e1 : setField ((a, b) :: rest) a v = (a, v) :: rest := by
          simp [setField]
        rw [e1]
        simp [List.lookup, beq_false_of_ne h]
      · have e1 : setField ((a, b) :: rest) k' v = (a, b) :: setField rest k' v := by
          simp [setField, ha]
        rw [e1]
        cases hk : (k == a) with
        | false => simp [List.lookup, hk, ih]
        | true => simp [List.lookup, hk]

/-- No generated fallback field name collides with `_rid`. -/
theorem unknown_ne_rid (t : String) : "_unknown" ++ t ≠ "_rid" := by
  intro h
  have hlen := congrArg String.length h
  rw [String.length_append] at hlen
  have h8 : "_unknown".length = 8 := by decide
  have h4 : "_rid".length = 4 := by decide
  omega

/-- Field names of columns not named `_rid` differ from `_rid`. -/
theorem fieldNameOf_ne_rid (col : SchemaColumn) (colIdx : Nat)
    (h : col.name ≠ some "_rid") : fieldNameOf col colIdx ≠ "_rid" := by
  unfold fieldNameOf
  cases hn : col.name with
  | none => exact unknown_ne_rid _
  | some s =>
      by_cases hs : s = ""
      · simp only [if_pos hs]
        exact unknown_ne_rid _
      · simp only [if_neg hs]
        intro hcontra
        exact h (by rw [hn, hcontra])

/-- The column loop never touches the `_rid` binding when no column of the
table is named `_rid`. -/
theorem decodeCols_lookup_rid (buf : List Nat) (vds rowStart rowSize : Nat)
    (cols : List SchemaColumn) :
    ∀ (colIdx : Nat) (row : List (String × Value)) (off : Nat),
      (∀ c ∈ cols, c.name ≠ some "_rid") →
      (decodeCols buf vds rowStart rowSize cols colIdx row off).lookup "_rid"
        = row.lookup "_rid" := by
  induction cols with
  | nil => intro colIdx row off _; simp [decodeCols]
  | cons col rest ih =>
      intro colIdx row off hnames
      rw [decodeCols]
      by_cases hb : rowStart + rowSize ≤ off
      · rw [if_pos hb]
      · rw [if_neg hb]
        rw [ih (colIdx + 1) _ _ fun c hc => hnames c (List.mem_cons_of_mem col hc)]
        exact lookup_setField_ne row "_rid" (fieldNameOf col colIdx) _
          (Ne.symm (fieldNameOf_ne_rid col colIdx (hnames col (List.mem_cons_self col rest))))

/-- C10 (amended): when `parse` succeeds (no `error`) on a buffer with a
positive declared row count — and no schema column is itself named `_rid` —
the result has exactly `rowCount` rows in file order and row `i` carries
the extra field `_rid = i`. -/
theorem C10_rid_invariant_amended (table : SchemaTable) (buf : List Nat) (rc : Nat)
    (hrc : leBytes buf 0 4 = rc) (hpos : 0 < rc)
    (herr : (parse table buf).error = none)
    (hnames : ∀ c ∈ table.columns, c.name ≠ some "_rid") :
    (parse table buf).rows.length = rc
      ∧ ∀ i (h : i < (parse table buf).rows.length),
          ((parse table buf).rows[i]).lookup "_rid" = some (Value.int (i : Int)) := by
  by_cases h4 : buf.length < 4
  · exact absurd herr (by simp [parse, if_pos h4])
  · have hne : ¬ leBytes buf 0 4 = 0 := by omega
    cases hm : findMagic buf with
    | none =>
        exfalso
        have : (parse table buf).error = some "Magic bytes not found" := by
          simp [parse, if_neg h4, if_neg hne, hm]
        rw [this] at herr
        exact Option.noConfusion herr
    | some m =>
        obtain ⟨hrows, hlen, -⟩ :=
          C1_row_size_reconciliation table buf rc m (by omega) hrc hpos hm
        refine ⟨hlen, ?_⟩
        intro i h
        have hi : i < rc := by omega
        rw [List.getElem_of_eq hrows h]
        simp only [List.getElem_map, List.getElem_range]
        unfold decodeRow
        rw [decodeCols_lookup_rid buf m _ _ table.columns 0 _ _ hnames]
        simp [List.lookup]

/-- C10 witness: the two-row fixture, whose single column is named `a`. -/
theorem C10_rid_invariant_amended_witness :
    (leBytes bufW 0 4 = 2 ∧ 0 < 2 ∧ (parse tbl1 bufW).error = none
        ∧ ∀ c ∈ tbl1.columns, c.name ≠ some "_rid")
      ∧ ((parse tbl1 bufW).rows.length = 2
        ∧ ∀ i (h : i < (parse tbl1 bufW).rows.length),
            ((parse tbl1 bufW).rows[i]).lookup "_rid" = some (Value.int (i : Int))) :=
  ⟨⟨by decide, by decide, by rfl, by decide⟩,
    C10_rid_invariant_amended tbl1 bufW 2 (by decide) (by decide) (by rfl) (by decide)⟩

/-- C10 counterexample: a schema column named `_rid` overwrites the row
index — the decoded row's `_rid` is the column's boolean value, not the
index `0` — refuting the unconditional claim. -/
theorem C10_rid_overwritten_cex :
    (parse tblR bufR).error = none
      ∧ (parse tblR bufR).rows.length = 1
      ∧ ((parse tblR bufR).rows.getD 0 []).lookup "_rid" = some (Value.bool true)
      ∧ ((parse tblR bufR).rows.getD 0 []).lookup "_rid" ≠ some (Value.int 0) := by
  refine ⟨rfl, rfl, rfl, ?_⟩
  intro h
  have h2 : Value.bool true = Value.int 0 :=
    Option.some.inj ((rfl :
      ((parse tblR bufR).rows.getD 0 []).lookup "_rid" = some (Value.bool true)).symm.trans h)
  exact Value.noConfusion h2

/-- Characterisation of the terminator scan: with enough fuel, the scan
stops at or after its start, an even distance away, every skipped position
holds a nonzero 32-bit word, and the stop position is the terminator or
the point where a 4-byte read no longer fits. -/
theorem stringEndGo_spec (buf : List Nat) :
    ∀ fuel e, buf.length ≤ e + 2 * fuel →
      e ≤ stringEndGo buf fuel e
      ∧ 2 ∣ (stringEndGo buf fuel e - e)
      ∧ (∀ j, e + 2 * j < stringEndGo buf fuel e →
          e + 2 * j + 4 ≤ buf.length ∧ leBytes buf (e + 2 * j) 4 ≠ 0)
      ∧ (buf.length < stringEndGo buf fuel e + 4
          ∨ leBytes buf (stringEndGo buf fuel e) 4 = 0) := by
  intro fuel
  induction fuel with
  | zero =>
      intro e hlen
      simp only [stringEndGo]
      exact ⟨Nat.le_refl e, by simp, fun j hj => absurd hj (by omega), Or.inl (by omega)⟩
  | succ fuel ih =>
      intro e hlen
      rw [stringEndGo]
      by_cases h1 : e + 4 ≤ buf.length
      · by_cases h0 : leBytes buf e 4 = 0
        · rw [if_pos h1, if_pos h0]
          exact ⟨Nat.le_refl e, by simp, fun j hj => absurd hj (by omega), Or.inr h0⟩
        · rw [if_pos h1, if_neg h0]
          obtain ⟨ha, hb, hc, hd⟩ := ih (e + 2) (by omega)
          refine ⟨by omega, ?_, ?_, hd⟩
          · obtain ⟨q, hq⟩ := hb
            exact ⟨q + 1, by omega⟩
          · intro j hj
            cases j with
            | zero => exact ⟨by omega, by simpa using h0⟩
            | succ j =>
                have hj' : e + 2 + 2 * j < stringEndGo buf fuel (e + 2) := by omega
                obtain ⟨hx, hy⟩ := hc j hj'
                have harg : e + 2 * (j + 1) = e + 2 + 2 * j := by ring
                rw [harg]
                exact ⟨by omega, hy⟩
      · rw [if_neg h1]
        exact ⟨Nat.le_refl e, by simp, fun j hj => absurd hj (by omega), Or.inl (by omega)⟩

/-- C4: a string field decodes to null (distinct from the empty string)
exactly for a negative 64-bit offset; a non-negative offset resolves to
the absolute position `vds + offset`, where the decoder reads UTF-16LE
code units two bytes at a time until the first 4-byte run of zeros; an
offset at or past the end of the buffer yields the empty string. -/
theorem C4_string_field_semantics (buf : List Nat) (off vds : Nat) (v : Int)
    (hv : readBigInt64LE buf off = some v) :
    (v < 0 → readField buf off vds ColType.string = some (Value.null, 8))
      ∧ (0 ≤ v → readField buf off vds ColType.string
          = some (Value.str (readString buf (vds + v.toNat)), 8))
      ∧ Value.null ≠ Value.str []
      ∧ (∀ p, buf.length ≤ p → readString buf p = [])
      ∧ (∀ p, p < buf.length →
            readString buf p = utf16Range buf p ((stringEnd buf p - p) / 2)
          ∧ p ≤ stringEnd buf p
          ∧ 2 ∣ (stringEnd buf p - p)
          ∧ (∀ j, p + 2 * j < stringEnd buf p →
                p + 2 * j + 4 ≤ buf.length ∧ leBytes buf (p + 2 * j) 4 ≠ 0)
          ∧ (buf.length < stringEnd buf p + 4
              ∨ leBytes buf (stringEnd buf p) 4 = 0)) := by
  refine ⟨?_, ?_, fun h => Value.noConfusion h, ?_, ?_⟩
  · intro hneg
    simp only [readField, hv, Option.map_some']
    rw [if_pos hneg]
  · intro hpos
    simp only [readField, hv, Option.map_some']
    rw [if_neg (not_lt.mpr hpos)]
  · intro p hp
    simp [readString, hp]
  · intro p hp
    have hspec := stringEndGo_spec buf buf.length p (by omega)
    obtain ⟨ha, hb, hc, hd⟩ := hspec
    refine ⟨?_, ha, hb, hc, hd⟩
    by_cases he : stringEnd buf p = p
    · rw [readString, if_neg (not_le.mpr hp)]
      simp only [he, if_pos rfl]
      simp [utf16Range]
    · rw [readString, if_neg (not_le.mpr hp)]
      simp only [if_neg he]

/-- C4 witness: the string field of `strBuf` at offset 4 with the variable
region at 12, holding a non-negative offset 8. -/
theorem C4_string_field_semantics_witness :
    readBigInt64LE strBuf 4 = some 8
      ∧ ((8 : Int) < 0 → readField strBuf 4 12 ColType.string = some (Value.null, 8))
      ∧ ((0 : Int) ≤ 8 → readField strBuf 4 12 ColType.string
          = some (Value.str (readString strBuf (12 + (8 : Int).toNat)), 8))
      ∧ Value.null ≠ Value.str []
      ∧ (∀ p, strBuf.length ≤ p → readString strBuf p = [])
      ∧ (∀ p, p < strBuf.length →
            readString strBuf p = utf16Range strBuf p ((stringEnd strBuf p - p) / 2)
          ∧ p ≤ stringEnd strBuf p
          ∧ 2 ∣ (stringEnd strBuf p - p)
          ∧ (∀ j, p + 2 * j < stringEnd strBuf p →
                p + 2 * j + 4 ≤ strBuf.length ∧ leBytes strBuf (p + 2 * j) 4 ≠ 0)
          ∧ (strBuf.length < stringEnd strBuf p + 4
              ∨ leBytes strBuf (stringEnd strBuf p) 4 = 0)) := by
  have h := C4_string_field_semantics strBuf 4 12 8 (by decide)
  exact ⟨by decide, h.1, h.2.1, h.2.2.1, h.2.2.2.1, h.2.2.2.2⟩

/-- Field sizes are positive, so array element loops advance. -/
theorem fieldSize_pos (t : ColType) : 0 < fieldSize t := by
  cases t <;> decide

/-- Closed form of the element loop: it reads `min count fit` elements,
where `fit` is how many whole elements lie between the data offset and the
end of the buffer, each from its in-order position. -/
theorem readArrayLoop_closed (buf : List Nat) (vds : Nat) (t : ColType) (es : Nat)
    (hes : 0 < es) :
    ∀ n eo, readArrayLoop buf vds t es n eo
      = (List.range (min n ((buf.length - eo) / es))).map
          fun j => elemVal buf vds t (eo + j * es) := by
  intro n
  induction n with
  | zero => intro eo; simp [readArrayLoop]
  | succ n ih =>
      intro eo
      rw [readArrayLoop]
      by_cases h : buf.length < eo + es
      · rw [if_pos h]
        have hz : (buf.length - eo) / es = 0 := Nat.div_eq_of_lt (by omega)
        rw [hz]
        simp
      · rw [if_neg h]
        rw [ih (eo + es)]
        have hdiv : (buf.length - eo) / es = (buf.length - (eo + es)) / es + 1 := by
          have h1 : buf.length - eo = (buf.length - (eo + es)) + es := by omega
          rw [h1, Nat.add_div_right _ hes]
        rw [hdiv, Nat.succ_min_succ, List.range_succ_eq_map, List.map_cons, List.map_map]
        refine congrArg₂ List.cons (by norm_num) ?_
        refine congrArg (fun f => List.map f (List.range _)) (funext fun j => ?_)
        simp only [Function.comp_apply, Nat.succ_eq_add_one]
        have harg : eo + es + j * es = eo + (j + 1) * es := by ring
        rw [harg]

/-- C5: no decoded array exceeds 100 000 elements; a negative or over-large
recorded length decodes to the empty list; and in the reading case the loop
halts at the buffer end, returning the partial in-order element list. -/
theorem C5_array_bounds (buf : List Nat) (off vds : Nat) (t : ColType)
    (vs : List Value) (n : Nat) (L A : Int)
    (hL : readBigInt64LE buf off = some L)
    (hA : readBigInt64LE buf (off + 8) = some A)
    (h : readArray buf off vds t = some (vs, n)) :
    vs.length ≤ 100000
      ∧ ((100000 < L ∨ L < 0) → vs = [])
      ∧ (0 < L → L ≤ 100000 → 0 ≤ A → t ≠ ColType.array →
          vds + A.toNat < buf.length →
          vs = (List.range
                  (min L.toNat ((buf.length - (vds + A.toNat)) / fieldSize t))).map
                fun j => elemVal buf vds t (vds + A.toNat + j * fieldSize t)) := by
  have hmatch : readArray buf off vds t =
      (if L = 0 ∨ A < 0 then some ([], 16)
       else if 100000 < L ∨ L < 0 then some ([], 16)
       else if t = ColType.array then some ([], 16)
       else if buf.length ≤ vds + A.toNat then some ([], 16)
       else some (readArrayLoop buf vds t (fieldSize t) L.toNat (vds + A.toNat), 16)) := by
    rw [readArray, hL, hA]
  rw [hmatch] at h
  by_cases hz : L = 0 ∨ A < 0
  · rw [if_pos hz] at h
    have hvs : vs = [] := (congrArg Prod.fst (Option.some.inj h)).symm
    exact ⟨by rw [hvs]; simp, fun _ => hvs, fun hL1 _ hA1 _ _ => absurd hz (by omega)⟩
  · rw [if_neg hz] at h
    by_cases hbig : 100000 < L ∨ L < 0
    · rw [if_pos hbig] at h
      have hvs : vs = [] := (congrArg Prod.fst (Option.some.inj h)).symm
      exact ⟨by rw [hvs]; simp, fun _ => hvs, fun hL1 hL2 _ _ _ => absurd hbig (by omega)⟩
    · rw [if_neg hbig] at h
      by_cases harr : t = ColType.array
      · rw [if_pos harr] at h
        have hvs : vs = [] := (congrArg Prod.fst (Option.some.inj h)).symm
        exact ⟨by rw [hvs]; simp, fun hcon => absurd hcon (by omega),
          fun _ _ _ hne _ => absurd harr hne⟩
      · rw [if_neg harr] at h
        by_cases hoob : buf.length ≤ vds + A.toNat
        · rw [if_pos hoob] at h
          have hvs : vs = [] := (congrArg Prod.fst (Option.some.inj h)).symm
          exact ⟨by rw [hvs]; simp, fun hcon => absurd hcon (by omega),
            fun _ _ _ _ hlt => absurd hoob (by omega)⟩
        · rw [if_neg hoob] at h
          have hvs : vs = readArrayLoop buf vds t (fieldSize t) L.toNat (vds + A.toNat) :=
            (congrArg Prod.fst (Option.some.inj h)).symm
          have hloop : vs = (List.range
                (min L.toNat ((buf.length - (vds + A.toNat)) / fieldSize t))).map
              fun j => elemVal buf vds t (vds + A.toNat + j * fieldSize t) := by
            rw [hvs, readArrayLoop_closed buf vds t (fieldSize t) (fieldSize_pos t)]
          refine ⟨?_, fun hcon => absurd hcon (by omega), fun _ _ _ _ _ => hloop⟩
          rw [hloop]
          simp only [List.length_map, List.length_range]
          have hle : L.toNat ≤ 100000 := by omega
          omega

/-- C5 witness: the three-element `i32` array of `arrBuf`. -/
theorem C5_array_bounds_witness :
    (readBigInt64LE arrBuf 4 = some 3
        ∧ readBigInt64LE arrBuf 12 = some 8
        ∧ readArray arrBuf 4 20 ColType.i32
            = some ([Value.int 1, Value.int 2, Value.int 3], 16))
      ∧ ([Value.int 1, Value.int 2, Value.int 3].length ≤ 100000
        ∧ (((100000 : Int) < 3 ∨ (3 : Int) < 0)
            → [Value.int 1, Value.int 2, Value.int 3] = [])
        ∧ ((0 : Int) < 3 → (3 : Int) ≤ 100000 → (0 : Int) ≤ 8
            → ColType.i32 ≠ ColType.array → 20 + (8 : Int).toNat < arrBuf.length →
            [Value.int 1, Value.int 2, Value.int 3]
              = (List.range
                  (min (3 : Int).toNat
                    ((arrBuf.length - (20 + (8 : Int).toNat)) / fieldSize ColType.i32))).map
                  fun j => elemVal arrBuf 20 ColType.i32 (20 + (8 : Int).toNat
                    + j * fieldSize ColType.i32))) :=
  ⟨⟨by decide, by decide, by rfl⟩,
    C5_array_bounds arrBuf 4 20 ColType.i32 [Value.int 1, Value.int 2, Value.int 3] 16 3 8
      (by decide) (by decide) (by rfl)⟩

/-- The slicing loop on an empty list yields no batches. -/
theorem chunkByGo_nil {α : Type} (bs fuel : Nat) : chunkByGo (α := α) bs fuel [] = [] := by
  cases fuel <;> rfl

/-- Number of batches produced by the slicing loop: the ceiling of
`length / bs`. -/
theorem chunkByGo_length {α : Type} (bs : Nat) (hbs : 0 < bs) :
    ∀ (fuel : Nat) (l : List α), l.length ≤ fuel →
      (chunkByGo bs fuel l).length = (l.length + bs - 1) / bs := by
  intro fuel
  induction fuel with
  | zero =>
      intro l hl
      have hnil : l = [] := List.length_eq_zero.mp (by omega)
      subst hnil
      simp [chunkByGo, Nat.div_eq_of_lt (show bs - 1 < bs by omega)]
  | succ f ih =>
      intro l hl
      cases l with
      | nil => simp [chunkByGo, Nat.div_eq_of_lt (show bs - 1 < bs by omega)]
      | cons x xs =>
          have hxl : xs.length + 1 ≤ f + 1 := by simpa using hl
          rw [chunkByGo, List.length_cons,
            ih ((x :: xs).drop bs) (by rw [List.length_drop, List.length_cons]; omega),
            List.length_drop, List.length_cons]
          by_cases hcase : xs.length + 1 ≤ bs
          · have h1 : xs.length + 1 - bs = 0 := by omega
            have h2 : xs.length + 1 + bs - 1 = xs.length + bs := by omega
            rw [h1, h2, Nat.add_div_right _ hbs,
              Nat.div_eq_of_lt (show 0 + bs - 1 < bs by omega),
              Nat.div_eq_of_lt (show xs.length < bs by omega)]
          · have h1 : xs.length + 1 - bs + bs - 1 = xs.length := by omega
            have h2 : xs.length + 1 + bs - 1 = xs.length + bs := by omega
            rw [h1, h2, Nat.add_div_right _ hbs]

/-- Concatenating the batches restores the task list. -/
theorem chunkByGo_flatten {α : Type} (bs : Nat) (hbs : 0 < bs) :
    ∀ (fuel : Nat) (l : List α), l.length ≤ fuel →
      (chunkByGo bs fuel l).flatten = l := by
  intro fuel
  induction fuel with
  | zero =>
      intro l hl
      have hnil : l = [] := List.length_eq_zero.mp (by omega)
      subst hnil
      simp [chunkByGo]
  | succ f ih =>
      intro l hl
      cases l with
      | nil => simp [chunkByGo]
      | cons x xs =>
          have hxl : xs.length + 1 ≤ f + 1 := by simpa using hl
          rw [chunkByGo, List.flatten_cons,
            ih ((x :: xs).drop bs) (by rw [List.length_drop, List.length_cons]; omega),
            List.take_append_drop]

/-- Every batch is nonempty and no longer than the batch size. -/
theorem chunkByGo_mem {α : Type} (bs : Nat) (hbs : 0 < bs) :
    ∀ (fuel : Nat) (l : List α), l.length ≤ fuel →
      ∀ b ∈ chunkByGo bs fuel l, b ≠ [] ∧ b.length ≤ bs := by
  intro fuel
  induction fuel with
  | zero =>
      intro l hl b hb
      have hnil : l = [] := List.length_eq_zero.mp (by omega)
      subst hnil
      simp [chunkByGo] at hb
  | succ f ih =>
      intro l hl b hb
      cases l with
      | nil => simp [chunkByGo] at hb
      | cons x xs =>
          have hxl : xs.length + 1 ≤ f + 1 := by simpa using hl
          rw [chunkByGo] at hb
          rcases List.mem_cons.mp hb with hbt | hbr
          · subst hbt
            constructor
            · apply List.length_pos.mp
              rw [List.length_take]
              simp
              omega
            · rw [List.length_take]
              omega
          · exact ih ((x :: xs).drop bs) (by rw [List.length_drop, List.length_cons]; omega) b hbr

/-- Every batch except possibly the last has exactly the batch size. -/
theorem chunkByGo_dropLast {α : Type} (bs : Nat) (hbs : 0 < bs) :
    ∀ (fuel : Nat) (l : List α), l.length ≤ fuel →
      ∀ b ∈ (chunkByGo bs fuel l).dropLast, b.length = bs := by
  intro fuel
  induction fuel with
  | zero =>
      intro l hl b hb
      have hnil : l = [] := List.length_eq_zero.mp (by omega)
      subst hnil
      simp [chunkByGo] at hb
  | succ f ih =>
      intro l hl b hb
      cases l with
      | nil => simp [chunkByGo] at hb
      | cons x xs =>
          have hxl : xs.length + 1 ≤ f + 1 := by simpa using hl
          rw [chunkByGo] at hb
          cases hrest : chunkByGo bs f ((x :: xs).drop bs) with
          | nil => rw [hrest] at hb; simp at hb
          | cons r rs =>
              rw [hrest, List.dropLast_cons₂] at hb
              rcases List.mem_cons.mp hb with hbt | hbr
              · subst hbt
                have hne : (x :: xs).drop bs ≠ [] := by
                  intro hd
                  rw [hd, chunkByGo_nil] at hrest
                  exact List.noConfusion hrest
                have hlen : bs < (x :: xs).length := by
                  by_contra hc
                  push_neg at hc
                  exact hne (List.drop_eq_nil_of_le hc)
                rw [List.length_take]
                simp at hlen ⊢
                omega
              · exact ih ((x :: xs).drop bs)
                  (by rw [List.length_drop, List.length_cons]; omega) b (by rw [hrest]; exact hbr)

/-- C8 counterexample: four tasks with concurrency 3 yield 2 batches, not
`min(3, 4) = 3` — the batch size rounds up to 2, so the loop produces only
`ceil(4/2) = 2` slices, refuting the claim of exactly `min(c, N)` batches. -/
theorem C8_batch_count_cex :
    (makeBatches 3 [0, 1, 2, 3] : List (List Nat)).length = 2
      ∧ min 3 ([0, 1, 2, 3] : List Nat).length = 3
      ∧ (makeBatches 3 [0, 1, 2, 3] : List (List Nat)).length
          ≠ min 3 ([0, 1, 2, 3] : List Nat).length := by
  refine ⟨by decide, by decide, by decide⟩

/-- C8 (amended): for a nonempty task list of length `N` and concurrency
`c ≥ 1`, the driver slices the list into consecutive batches of size
`B = ⌈N / min(c, N)⌉` — every batch is nonempty, all but possibly the last
have exactly `B` tasks, their concatenation is the task list — and the
number of batches is `⌈N / B⌉`, which is at most (but not always equal to)
`min(c, N)`. -/
theorem C8_batch_partition_amended {α : Type} (c : Nat) (tasks : List α) (N w B : Nat)
    (hN : tasks.length = N) (hc : 1 ≤ c) (hne : tasks ≠ [])
    (hw : w = min c N) (hB : B = (N + w - 1) / w) :
    (makeBatches c tasks).length = (N + B - 1) / B
      ∧ (makeBatches c tasks).flatten = tasks
      ∧ (∀ b ∈ makeBatches c tasks, b ≠ [] ∧ b.length ≤ B)
      ∧ (∀ b ∈ (makeBatches c tasks).dropLast, b.length = B)
      ∧ (makeBatches c tasks).length ≤ w := by
  subst hN hw hB
  have hNpos : 0 < tasks.length := List.length_pos.mpr hne
  have hwpos : 0 < min c tasks.length := by omega
  have hBpos : 0 < (tasks.length + min c tasks.length - 1) / min c tasks.length :=
    (Nat.one_le_div_iff hwpos).mpr (by omega)
  have hmb : makeBatches c tasks =
      chunkByGo ((tasks.length + min c tasks.length - 1) / min c tasks.length)
        tasks.length tasks := by
    simp only [makeBatches, chunkBy]
  have hmul : tasks.length ≤
      ((tasks.length + min c tasks.length - 1) / min c tasks.length) * min c tasks.length := by
    have hdm := Nat.div_add_mod (tasks.length + min c tasks.length - 1) (min c tasks.length)
    have hmod : (tasks.length + min c tasks.length - 1) % min c tasks.length
        < min c tasks.length := Nat.mod_lt _ hwpos
    rw [Nat.mul_comm]
    omega
  refine ⟨?_, ?_, ?_, ?_, ?_⟩
  · rw [hmb]
    exact chunkByGo_length _ hBpos tasks.length tasks (Nat.le_refl _)
  · rw [hmb]
    exact chunkByGo_flatten _ hBpos tasks.length tasks (Nat.le_refl _)
  · rw [hmb]
    exact chunkByGo_mem _ hBpos tasks.length tasks (Nat.le_refl _)
  · rw [hmb]
    exact chunkByGo_dropLast _ hBpos tasks.length tasks (Nat.le_refl _)
  · rw [hmb, chunkByGo_length _ hBpos tasks.length tasks (Nat.le_refl _)]
    rw [Nat.div_le_iff_le_mul_add_pred hBpos]
    omega

/-- C8 witness: five tasks across two workers — batch size 3, two batches
`[0,1,2]` and `[3,4]`. -/
theorem C8_batch_partition_amended_witness :
    (([0, 1, 2, 3, 4] : List Nat).length = 5 ∧ 1 ≤ 2 ∧ ([0, 1, 2, 3, 4] : List Nat) ≠ []
        ∧ 2 = min 2 5 ∧ 3 = (5 + 2 - 1) / 2)
      ∧ ((makeBatches 2 [0, 1, 2, 3, 4] : List (List Nat)).length = (5 + 3 - 1) / 3
        ∧ (makeBatches 2 [0, 1, 2, 3, 4] : List (List Nat)).flatten = [0, 1, 2, 3, 4]
        ∧ (∀ b ∈ (makeBatches 2 [0, 1, 2, 3, 4] : List (List Nat)), b ≠ [] ∧ b.length ≤ 3)
        ∧ (∀ b ∈ (makeBatches 2 [0, 1, 2, 3, 4] : List (List Nat)).dropLast, b.length = 3)
        ∧ (makeBatches 2 [0, 1, 2, 3, 4] : List (List Nat)).length ≤ 2) :=
  ⟨⟨by decide, by decide, by decide, by decide, by decide⟩,
    C8_batch_partition_amended 2 [0, 1, 2, 3, 4] 5 2 3 (by decide) (by decide) (by decide)
      (by decide) (by decide)⟩

end GGPKTool
